import Mathlib

/-!
Verification of the halftoning engine of `dymo_print.py`.

The definitions below are shallow embeddings of the functions
`get_hilbert_curve` (with its inner helpers `rot` and `d2xy`),
`riemersma_dither`, `ascii_dither`, and the dithering-strategy dispatch of
`prepare_image`.  Machine integers are modelled as `Nat`; Python floats are
modelled as real numbers (the float expressions that are compared or floored
here stay far from any rounding boundary, see the comments at each use).
-/

namespace Dymo

/-- Embeds the inner helper `rot(n, x, y, rx, ry)` of `get_hilbert_curve`:
if `ry == 0` it optionally reflects (`rx == 1`) and then swaps the two
coordinates, otherwise it returns them unchanged. -/
def rot (n x y rx ry : Nat) : Nat × Nat :=
  if ry = 0 then
    if rx = 1 then (n - 1 - y, n - 1 - x) else (y, x)
  else (x, y)

/-- Embeds the `while s < n` loop of `d2xy` with explicit fuel.  The state is
`(x, y, t, s)` exactly as in the source; each pass extracts the two bits
`rx = 1 & (t // 2)` and `ry = 1 & (t ^ rx)`, applies `rot`, adds the quadrant
offsets, and continues with `t // 4` and `s * 2`. -/
def d2xyGo : Nat → Nat → Nat → Nat → Nat → Nat → Nat × Nat
  | 0, _, x, y, _, _ => (x, y)
  | fuel + 1, n, x, y, t, s =>
    if s < n then
      let rx := t / 2 % 2
      let ry := (t ^^^ rx) % 2
      let p := rot s x y rx ry
      d2xyGo fuel n (p.1 + s * rx) (p.2 + s * ry) (t / 4) (2 * s)
    else (x, y)

/-- Embeds `d2xy(n, d)`: starts from `x = y = 0`, `t = d`, `s = 1`.  The loop
doubles `s` each pass, so for power-of-two `n` it runs `log2 n ≤ n` passes and
the fuel `n` is never exhausted. -/
def d2xy (n d : Nat) : Nat × Nat := d2xyGo n n 0 0 d 1

/-- Embeds the `size = 1; while size < width or size < height: size *= 2`
preamble of `get_hilbert_curve`, with explicit fuel.  Starting from `s = 1`
the loop needs at most `max width height` doublings, so fuel
`width + height + 1` is never exhausted. -/
def hilbertSizeGo : Nat → Nat → Nat → Nat → Nat
  | 0, _, _, s => s
  | fuel + 1, w, h, s => if s < w ∨ s < h then hilbertSizeGo fuel w h (2 * s) else s

/-- The padded square order chosen by `get_hilbert_curve`. -/
def hilbertSize (w h : Nat) : Nat := hilbertSizeGo (w + h + 1) w h 1

/-- Embeds the generator `get_hilbert_curve(width, height)` as the list of the
yielded coordinates: every `d2xy(size, d)` for `d in range(size * size)`, kept
only when `x < width and y < height`, in `d`-order. -/
def get_hilbert_curve (width height : Nat) : List (Nat × Nat) :=
  ((List.range (hilbertSize width height * hilbertSize width height)).map
      (fun d => d2xy (hilbertSize width height) d)).filter
    (fun p => decide (p.1 < width ∧ p.2 < height))

/-- Structured per-level form of the `d2xy` loop: `hIter k d` is the state of
`(x, y)` after the first `k` passes of the loop (the pass at level `j` uses
`t = d / 4^j` and `s = 2^j`).  Proof-side companion of `d2xyGo`. -/
def hIter : Nat → Nat → Nat × Nat
  | 0, _ => (0, 0)
  | k + 1, d =>
    let t := d / 4 ^ k
    let rx := t / 2 % 2
    let ry := (t ^^^ rx) % 2
    let p := hIter k d
    let q := rot (2 ^ k) p.1 p.2 rx ry
    (q.1 + 2 ^ k * rx, q.2 + 2 ^ k * ry)

/-- Manhattan distance between two grid points, used to state the Hilbert
adjacency property. -/
def manhattan (p q : Nat × Nat) : Nat := Nat.dist p.1 q.1 + Nat.dist p.2 q.2

/-- A grayscale (PIL mode 'L') image: dimensions plus the pixel mapping.
`pix y x` mirrors the numpy indexing `img_data[y, x]`; intensities are
0-to-255 machine bytes modelled as `Nat`. -/
structure GrayImage where
  w : Nat
  h : Nat
  pix : Nat → Nat → Nat

/-- The 48-glyph ramp `ascii_chars` of `ascii_dither`, light to dark
(braces written as hex escapes). -/
def ascii_chars : String :=
  " .'`^\",:;Il!i><~+_-?][\x7d\x7b1)(|\\/tfjrxnuvczMW&8%B@$"

/-- Embeds the glyph-index computation of `ascii_dither`:
`char_index = int((255 - brightness) / 255 * (len(ascii_chars) - 1))` followed
by `min(char_index, len(ascii_chars) - 1)`.  For `0 ≤ v ≤ 255` the Python
float expression is at distance ≥ 1/255 from every integer it does not hit
exactly, while its double-rounding error is below `10⁻¹³`, so `int(...)`
(truncation of a nonnegative value) equals this exact `Nat` floor division. -/
def asciiCharIndex (L v : Nat) : Nat := min ((255 - v) * (L - 1) / 255) (L - 1)

/-- Embeds `ascii_dither`: the output is `Image.new('L', (target_w, target_h))`
(white background 255) onto which each grid cell's glyph is drawn in black.
`cellPix col row` is the LANCZOS-resized `cols × rows` grid (the resize is
done by the external PIL library and is a parameter here), and `fontMask`
abstracts the external font rasterizer: `fontMask i dy dx` tells whether glyph
`i` inks the pixel at offset `(dy, dx)` of its cell box. -/
def ascii_dither (cellPix : Nat → Nat → Nat) (fontMask : Nat → Nat → Nat → Bool)
    (target_w target_h char_width char_height : Nat) : GrayImage :=
  ⟨target_w, target_h, fun yy xx =>
    if yy / char_height < target_h / char_height ∧
        xx / char_width < target_w / char_width ∧
        fontMask
          (asciiCharIndex ascii_chars.length (cellPix (xx / char_width) (yy / char_height)))
          (yy % char_height) (xx % char_width) = true
      then 0 else 255⟩

/-- The names recognised by the shared error-diffusion branch of
`prepare_image`'s dispatch. -/
def diffusionKernels : List String :=
  ["floyd-steinberg", "atkinson", "jarvis-judice-ninke", "stucki", "burkes",
   "sierra3", "sierra2", "sierra-2-4a"]

/-- The branch taken by `prepare_image`'s `if/elif` dispatch on `dither_alg`.
The source has no error branch: the trailing `else` converts with
`dither=Image.NONE` (simple threshold). -/
inductive DitherChoice where
  | floyd
  | bayer
  | yliluoma
  | cluster
  | diffusion (kernel : String)
  | asciiArt
  | riemersma
  | fallbackThreshold
deriving DecidableEq

/-- Embeds the strategy dispatch of `prepare_image` (the `if/elif/else` chain
on `dither_alg`), in source order. -/
def prepareDispatch (alg : String) : DitherChoice :=
  if alg = "floyd" then DitherChoice.floyd
  else if alg = "bayer" then DitherChoice.bayer
  else if alg = "yliluoma" then DitherChoice.yliluoma
  else if alg = "cluster" then DitherChoice.cluster
  else if alg ∈ diffusionKernels then DitherChoice.diffusion alg
  else if alg = "ascii" then DitherChoice.asciiArt
  else if alg = "riemersma" then DitherChoice.riemersma
  else DitherChoice.fallbackThreshold

/-- Python-level failures that the embedded code can raise. -/
inductive PyError where
  | zeroDivision
deriving DecidableEq

/-- The raw weight vector of `riemersma_dither`:
`weights[i] = ratio ** (i / (history_depth - 1))` for `i in range(history_depth)`.
Python float `**` on a positive base is real exponentiation, modelled by
`Real.rpow`.  (For `history_depth = 1` Python raises `ZeroDivisionError` at
`i / 0` before any weight is stored; that case is guarded in
`riemersma_dither` below and this definition is not used there.) -/
noncomputable def riemersmaWeightsRaw (H : Nat) (r : ℝ) : List ℝ :=
  (List.range H).map (fun (i : Nat) => r ^ ((i : ℝ) / ((H : ℝ) - 1)))

/-- The normalisation `weights /= np.sum(weights)`. -/
noncomputable def riemersmaWeights (H : Nat) (r : ℝ) : List ℝ :=
  (riemersmaWeightsRaw H r).map (fun x => x / (riemersmaWeightsRaw H r).sum)

/-- Embeds `np.sum(error_queue * weights)`: elementwise product, then sum. -/
noncomputable def dotSum (a b : List ℝ) : ℝ := (List.zipWith (fun u v => u * v) a b).sum

/-- The state entering the pixel loop of `riemersma_dither`: the output array
`np.zeros_like(img_data, dtype=np.uint8)` and the error queue
`np.zeros(history_depth)`. -/
def riemersmaInit (H : Nat) : (Nat → Nat → Nat) × List ℝ :=
  (fun _ _ => 0, List.replicate H 0)

/-- One pass of the pixel loop of `riemersma_dither` at curve point
`p = (x, y)`: `old_pixel = img_data[y, x] + np.sum(error_queue * weights)`;
`new_pixel = 255 if old_pixel > 127.5 else 0`; `output[y, x] = new_pixel`;
`error = old_pixel - new_pixel`; `error_queue = np.roll(error_queue, 1)`
followed by `error_queue[0] = error`, i.e. the new queue is
`error :: error_queue.dropLast`. -/
noncomputable def riemersmaStep (weights : List ℝ) (img : GrayImage)
    (st : (Nat → Nat → Nat) × List ℝ) (p : Nat × Nat) : (Nat → Nat → Nat) × List ℝ :=
  let total_error := dotSum st.2 weights
  let old_pixel : ℝ := (img.pix p.2 p.1 : ℝ) + total_error
  let new_pixel : Nat := if old_pixel > 127.5 then 255 else 0
  let error : ℝ := old_pixel - (new_pixel : ℝ)
  (fun yy xx => if yy = p.2 ∧ xx = p.1 then new_pixel else st.1 yy xx,
   error :: st.2.dropLast)

/-- The whole pixel loop of `riemersma_dither`, folded along the Hilbert
curve of the image's `(w, h)`. -/
noncomputable def riemersmaRun (img : GrayImage) (H : Nat) (r : ℝ) :
    (Nat → Nat → Nat) × List ℝ :=
  (get_hilbert_curve img.w img.h).foldl (riemersmaStep (riemersmaWeights H r) img)
    (riemersmaInit H)

/-- Embeds `riemersma_dither(img, history_depth, ratio)`.  With
`history_depth = 1` Python evaluates `0 / (history_depth - 1) = 0 / 0` inside
the weight loop and raises `ZeroDivisionError` before any pixel is processed;
otherwise the function returns the dithered image of the same shape.
(`history_depth = 0` is not modelled further: on a nonempty image numpy would
raise `IndexError` at the first `error_queue[0]` assignment.) -/
noncomputable def riemersma_dither (img : GrayImage) (H : Nat) (r : ℝ) :
    Except PyError GrayImage :=
  if H = 1 then Except.error PyError.zeroDivision
  else Except.ok ⟨img.w, img.h, (riemersmaRun img H r).1⟩

/-- Projects the pixel `(y, x)` out of a `riemersma_dither` result
(999 on the error branch, which no valid call hits). -/
def resultPix (e : Except PyError GrayImage) (y x : Nat) : Nat :=
  match e with
  | Except.ok o => o.pix y x
  | Except.error _ => 999

/-- Width of a `riemersma_dither` result (0 on the error branch). -/
def resultW (e : Except PyError GrayImage) : Nat :=
  match e with
  | Except.ok o => o.w
  | Except.error _ => 0

/-- Height of a `riemersma_dither` result (0 on the error branch). -/
def resultH (e : Except PyError GrayImage) : Nat :=
  match e with
  | Except.ok o => o.h
  | Except.error _ => 0

/-- The full mutable store of one `riemersma_dither` invocation: the caller's
buffer `img`, the private float copy `img_data = np.array(img, dtype=float)`,
the `output` array and the `error_queue`. -/
structure RiemersmaState where
  caller : Nat → Nat → Nat
  imgData : Nat → Nat → ℝ
  output : Nat → Nat → Nat
  queue : List ℝ

/-- One pass of the pixel loop acting on the full store: the arithmetic reads
`imgData` (the float copy), and the only writes are `output[y, x]` and the
error queue; `caller` and `imgData` are untouched, mirroring that the loop
body contains no assignment to `img` or `img_data`. -/
noncomputable def riemersmaStepImp (weights : List ℝ) (st : RiemersmaState)
    (p : Nat × Nat) : RiemersmaState :=
  let total_error := dotSum st.queue weights
  let old_pixel : ℝ := st.imgData p.2 p.1 + total_error
  let new_pixel : Nat := if old_pixel > 127.5 then 255 else 0
  let error : ℝ := old_pixel - (new_pixel : ℝ)
  { st with
    output := fun yy xx => if yy = p.2 ∧ xx = p.1 then new_pixel else st.output yy xx,
    queue := error :: st.queue.dropLast }

/-- Runs `riemersma_dither` with the whole store kept explicit:
`np.array(img, dtype=float)` copies the caller's pixels into the fresh
`imgData` buffer, and the loop is folded over the Hilbert curve. -/
noncomputable def riemersma_dither_imp (img : GrayImage) (H : Nat) (r : ℝ) :
    Except PyError RiemersmaState :=
  if H = 1 then Except.error PyError.zeroDivision
  else Except.ok ((get_hilbert_curve img.w img.h).foldl
    (riemersmaStepImp (riemersmaWeights H r))
    { caller := img.pix, imgData := fun y x => (img.pix y x : ℝ),
      output := fun _ _ => 0, queue := List.replicate H 0 })

/-- The caller's buffer at `(y, x)` after a store-level run (1000 on error). -/
def impCallerPix (e : Except PyError RiemersmaState) (y x : Nat) : Nat :=
  match e with
  | Except.ok st => st.caller y x
  | Except.error _ => 1000

/-- The float working copy at `(y, x)` after a store-level run (0 on error). -/
noncomputable def impDataPix (e : Except PyError RiemersmaState) (y x : Nat) : ℝ :=
  match e with
  | Except.ok st => st.imgData y x
  | Except.error _ => 0

/-- A 1×1 all-white (255) grayscale image, used as concrete test input. -/
def allWhite1 : GrayImage := ⟨1, 1, fun _ _ => 255⟩

/-- An all-zero output buffer, used as concrete test input. -/
def zeroOut : Nat → Nat → Nat := fun _ _ => 0

/-- A font mask that inks nothing, used as concrete test input. -/
def noInk : Nat → Nat → Nat → Bool := fun _ _ _ => false

lemma hIter_succ (k d : Nat) :
    hIter (k + 1) d =
      (let t := d / 4 ^ k
       let rx := t / 2 % 2
       let ry := (t ^^^ rx) % 2
       let p := hIter k d
       let q := rot (2 ^ k) p.1 p.2 rx ry
       (q.1 + 2 ^ k * rx, q.2 + 2 ^ k * ry)) := rfl

lemma rot_lt (n x y rx ry : Nat) (hx : x < n) (hy : y < n) :
    (rot n x y rx ry).1 < n ∧ (rot n x y rx ry).2 < n := by
  unfold rot
  split
  · split
    · constructor <;> simp <;> omega
    · exact ⟨hy, hx⟩
  · exact ⟨hx, hy⟩

lemma hIter_lt (k : Nat) : ∀ d, (hIter k d).1 < 2 ^ k ∧ (hIter k d).2 < 2 ^ k := by
  induction k with
  | zero => intro d; simp [hIter]
  | succ k ih =>
    intro d
    rw [hIter_succ]
    have hp := ih d
    have hq := rot_lt (2 ^ k) (hIter k d).1 (hIter k d).2
      (d / 4 ^ k / 2 % 2) ((d / 4 ^ k ^^^ d / 4 ^ k / 2 % 2) % 2) hp.1 hp.2
    have hrx : d / 4 ^ k / 2 % 2 ≤ 1 := Nat.le_of_lt_succ (Nat.mod_lt _ (by norm_num))
    have hry : (d / 4 ^ k ^^^ d / 4 ^ k / 2 % 2) % 2 ≤ 1 :=
      Nat.le_of_lt_succ (Nat.mod_lt _ (by norm_num))
    have h2 : 2 ^ (k + 1) = 2 ^ k + 2 ^ k := by rw [pow_succ]; omega
    constructor
    · simp only
      have : 2 ^ k * (d / 4 ^ k / 2 % 2) ≤ 2 ^ k := by
        calc 2 ^ k * (d / 4 ^ k / 2 % 2) ≤ 2 ^ k * 1 := Nat.mul_le_mul_left _ hrx
        _ = 2 ^ k := Nat.mul_one _
      omega
    · simp only
      have : 2 ^ k * ((d / 4 ^ k ^^^ d / 4 ^ k / 2 % 2) % 2) ≤ 2 ^ k := by
        calc 2 ^ k * ((d / 4 ^ k ^^^ d / 4 ^ k / 2 % 2) % 2) ≤ 2 ^ k * 1 :=
          Nat.mul_le_mul_left _ hry
        _ = 2 ^ k := Nat.mul_one _
      omega

lemma xor_mod_two (a b : Nat) : (a ^^^ b) % 2 = a % 2 ^^^ b % 2 := by
  rw [← Nat.and_one_is_mod, ← Nat.and_one_is_mod, ← Nat.and_one_is_mod,
    Nat.and_xor_distrib_right]

lemma hIter_succ_explicit (k d : Nat) :
    hIter (k + 1) d =
      ((rot (2 ^ k) (hIter k d).1 (hIter k d).2 (d / 4 ^ k / 2 % 2)
          ((d / 4 ^ k ^^^ d / 4 ^ k / 2 % 2) % 2)).1 + 2 ^ k * (d / 4 ^ k / 2 % 2),
       (rot (2 ^ k) (hIter k d).1 (hIter k d).2 (d / 4 ^ k / 2 % 2)
          ((d / 4 ^ k ^^^ d / 4 ^ k / 2 % 2) % 2)).2 +
         2 ^ k * ((d / 4 ^ k ^^^ d / 4 ^ k / 2 % 2) % 2)) := rfl

/-- The transform `hIter k` only looks at the `k` low base-4 digits of its argument. -/
lemma hIter_mod (k : Nat) : ∀ d, hIter k (d % 4 ^ k) = hIter k d := by
  induction k with
  | zero => intro d; rfl
  | succ k ih =>
    intro d
    have hdvd : (4 : Nat) ^ k ∣ 4 ^ (k + 1) := pow_dvd_pow 4 (Nat.le_succ k)
    have hinner : hIter k (d % 4 ^ (k + 1)) = hIter k d := by
      rw [← ih (d % 4 ^ (k + 1)), Nat.mod_mod_of_dvd d hdvd, ih d]
    have ht : d % 4 ^ (k + 1) / 4 ^ k = d / 4 ^ k % 4 := by
      rw [pow_succ]
      exact Nat.mod_mul_right_div_self d (4 ^ k) 4
    have hrx : d / 4 ^ k % 4 / 2 % 2 = d / 4 ^ k / 2 % 2 := by omega
    have hry : (d / 4 ^ k % 4 ^^^ d / 4 ^ k / 2 % 2) % 2 =
        (d / 4 ^ k ^^^ d / 4 ^ k / 2 % 2) % 2 := by
      rw [xor_mod_two, xor_mod_two]
      have h1 : d / 4 ^ k % 4 % 2 = d / 4 ^ k % 2 := by omega
      rw [h1]
    rw [hIter_succ_explicit, hIter_succ_explicit, hinner, ht, hrx, hry]

lemma d2xyGo_succ (fuel n x y t s : Nat) :
    d2xyGo (fuel + 1) n x y t s =
      if s < n then
        d2xyGo fuel n
          ((rot s x y (t / 2 % 2) ((t ^^^ t / 2 % 2) % 2)).1 + s * (t / 2 % 2))
          ((rot s x y (t / 2 % 2) ((t ^^^ t / 2 % 2) % 2)).2 + s * ((t ^^^ t / 2 % 2) % 2))
          (t / 4) (2 * s)
      else (x, y) := rfl

/-- Running the `d2xy` loop for `m` more passes from the level-`j` state
computes `hIter (j + m)`. -/
lemma d2xyGo_hIter : ∀ m j d fuel, m + 1 ≤ fuel →
    d2xyGo fuel (2 ^ (j + m)) (hIter j d).1 (hIter j d).2 (d / 4 ^ j) (2 ^ j) =
      hIter (j + m) d := by
  intro m
  induction m with
  | zero =>
    intro j d fuel hf
    obtain ⟨f, rfl⟩ : ∃ f, fuel = f + 1 := ⟨fuel - 1, by omega⟩
    rw [d2xyGo_succ, if_neg (by simp)]
    simp
  | succ m ih =>
    intro j d fuel hf
    obtain ⟨f, rfl⟩ : ∃ f, fuel = f + 1 := ⟨fuel - 1, by omega⟩
    rw [d2xyGo_succ,
      if_pos (Nat.pow_lt_pow_right (by norm_num) (by omega : j < j + (m + 1)))]
    have hA : (rot (2 ^ j) (hIter j d).1 (hIter j d).2 (d / 4 ^ j / 2 % 2)
        ((d / 4 ^ j ^^^ d / 4 ^ j / 2 % 2) % 2)).1 + 2 ^ j * (d / 4 ^ j / 2 % 2) =
        (hIter (j + 1) d).1 := by rw [hIter_succ_explicit]
    have hB : (rot (2 ^ j) (hIter j d).1 (hIter j d).2 (d / 4 ^ j / 2 % 2)
        ((d / 4 ^ j ^^^ d / 4 ^ j / 2 % 2) % 2)).2 +
        2 ^ j * ((d / 4 ^ j ^^^ d / 4 ^ j / 2 % 2) % 2) =
        (hIter (j + 1) d).2 := by rw [hIter_succ_explicit]
    have hd : d / 4 ^ j / 4 = d / 4 ^ (j + 1) := by
      rw [Nat.div_div_eq_div_mul, ← pow_succ]
    have hs : 2 * 2 ^ j = 2 ^ (j + 1) := by rw [pow_succ]; ring
    have he : j + (m + 1) = (j + 1) + m := by omega
    rw [hA, hB, hd, hs, he]
    exact ih (j + 1) d f (by omega)

/-- For power-of-two sizes, the faithful `d2xy` equals the structured `hIter`. -/
lemma d2xy_pow (k d : Nat) : d2xy (2 ^ k) d = hIter k d := by
  have h := d2xyGo_hIter k 0 d (2 ^ k) (by have := Nat.lt_two_pow k; omega)
  simpa [d2xy, hIter] using h

lemma hilbertSizeGo_succ (fuel w h s : Nat) :
    hilbertSizeGo (fuel + 1) w h s =
      if s < w ∨ s < h then hilbertSizeGo fuel w h (2 * s) else s := rfl

lemma hilbertSizeGo_spec : ∀ fuel w h j, w ≤ 2 ^ j + fuel → h ≤ 2 ^ j + fuel →
    ∃ m, hilbertSizeGo fuel w h (2 ^ j) = 2 ^ m ∧ w ≤ 2 ^ m ∧ h ≤ 2 ^ m := by
  intro fuel
  induction fuel with
  | zero => intro w h j hw hh; exact ⟨j, rfl, by omega, by omega⟩
  | succ fuel ih =>
    intro w h j hw hh
    rw [hilbertSizeGo_succ]
    by_cases hc : 2 ^ j < w ∨ 2 ^ j < h
    · rw [if_pos hc]
      have h2 : 2 * 2 ^ j = 2 ^ (j + 1) := by rw [pow_succ]; ring
      have hp : 1 ≤ 2 ^ j := Nat.one_le_two_pow
      have h3 : 2 ^ (j + 1) = 2 ^ j + 2 ^ j := by rw [pow_succ]; ring
      rw [h2]
      exact ih w h (j + 1) (by omega) (by omega)
    · rw [if_neg hc]
      push_neg at hc
      exact ⟨j, rfl, by omega, by omega⟩

/-- The padded square order is a power of two at least as large as each side. -/
lemma hilbertSize_spec (w h : Nat) :
    ∃ m, hilbertSize w h = 2 ^ m ∧ w ≤ 2 ^ m ∧ h ≤ 2 ^ m := by
  have := hilbertSizeGo_spec (w + h + 1) w h 0 (by simp; omega) (by simp; omega)
  simpa [hilbertSize] using this

lemma hilbertSizeGo_pow : ∀ fuel j k, j ≤ k → k ≤ j + fuel →
    hilbertSizeGo fuel (2 ^ k) (2 ^ k) (2 ^ j) = 2 ^ k := by
  intro fuel
  induction fuel with
  | zero =>
    intro j k h1 h2
    have : j = k := by omega
    subst this
    rfl
  | succ fuel ih =>
    intro j k h1 h2
    rw [hilbertSizeGo_succ]
    by_cases hc : j < k
    · rw [if_pos (Or.inl (Nat.pow_lt_pow_right (by norm_num) hc))]
      have h2' : 2 * 2 ^ j = 2 ^ (j + 1) := by rw [pow_succ]; ring
      rw [h2']
      exact ih (j + 1) k (by omega) (by omega)
    · have hj : j = k := by omega
      subst hj
      rw [if_neg (by simp)]

/-- When both sides are the same power of two, no padding happens. -/
lemma hilbertSize_pow (k : Nat) : hilbertSize (2 ^ k) (2 ^ k) = 2 ^ k := by
  have h := hilbertSizeGo_pow (2 ^ k + 2 ^ k + 1) 0 k (Nat.zero_le k)
    (by have := Nat.lt_two_pow k; omega)
  simpa [hilbertSize] using h

lemma rot_inj (n x y xx yy rx ry : Nat) (hx : x < n) (hy : y < n) (hxx : xx < n)
    (hyy : yy < n) (h : rot n x y rx ry = rot n xx yy rx ry) : x = xx ∧ y = yy := by
  unfold rot at h
  split at h
  · split at h
    · rw [Prod.mk.injEq] at h
      omega
    · rw [Prod.mk.injEq] at h
      omega
  · rw [Prod.mk.injEq] at h
    omega

/-- The two bits `(rx, ry)` extracted by the loop body determine the base-4
digit `t` they came from. -/
lemma quad_inj (a b : Nat) (ha : a < 4) (hb : b < 4)
    (h1 : a / 2 % 2 = b / 2 % 2)
    (h2 : (a ^^^ a / 2 % 2) % 2 = (b ^^^ b / 2 % 2) % 2) : a = b := by
  rw [xor_mod_two, xor_mod_two] at h2
  have e1 : a / 2 % 2 % 2 = a / 2 % 2 := by omega
  have e2 : b / 2 % 2 % 2 = b / 2 % 2 := by omega
  rw [e1, e2, h1] at h2
  have h3 : a % 2 = b % 2 := by
    have h4 := congrArg (fun z => z ^^^ b / 2 % 2) h2
    simpa [Nat.xor_assoc] using h4
  omega

/-- The transform `hIter k` is injective on `[0, 4^k)`. -/
lemma hIter_inj (k : Nat) : ∀ d e, d < 4 ^ k → e < 4 ^ k →
    hIter k d = hIter k e → d = e := by
  induction k with
  | zero =>
    intro d e hd he _
    omega
  | succ k ih =>
    intro d e hd he heq
    have h2pos : 0 < (2 : Nat) ^ k := pow_pos (by norm_num) k
    have h4pos : 0 < (4 : Nat) ^ k := pow_pos (by norm_num) k
    have h4 : (4 : Nat) ^ (k + 1) = 4 ^ k * 4 := pow_succ 4 k
    have htd : d / 4 ^ k < 4 := by
      rw [Nat.div_lt_iff_lt_mul h4pos]
      omega
    have hte : e / 4 ^ k < 4 := by
      rw [Nat.div_lt_iff_lt_mul h4pos]
      omega
    rw [hIter_succ_explicit, hIter_succ_explicit, Prod.mk.injEq] at heq
    obtain ⟨h1, h2⟩ := heq
    have hpd := hIter_lt k d
    have hpe := hIter_lt k e
    have hqd := rot_lt (2 ^ k) (hIter k d).1 (hIter k d).2 (d / 4 ^ k / 2 % 2)
      ((d / 4 ^ k ^^^ d / 4 ^ k / 2 % 2) % 2) hpd.1 hpd.2
    have hqe := rot_lt (2 ^ k) (hIter k e).1 (hIter k e).2 (e / 4 ^ k / 2 % 2)
      ((e / 4 ^ k ^^^ e / 4 ^ k / 2 % 2) % 2) hpe.1 hpe.2
    have hrx : d / 4 ^ k / 2 % 2 = e / 4 ^ k / 2 % 2 := by
      have hdiv := congrArg (fun z => z / 2 ^ k) h1
      simp only at hdiv
      rwa [Nat.add_mul_div_left _ _ h2pos, Nat.add_mul_div_left _ _ h2pos,
        Nat.div_eq_of_lt hqd.1, Nat.div_eq_of_lt hqe.1, Nat.zero_add,
        Nat.zero_add] at hdiv
    have hry : (d / 4 ^ k ^^^ d / 4 ^ k / 2 % 2) % 2 =
        (e / 4 ^ k ^^^ e / 4 ^ k / 2 % 2) % 2 := by
      have hdiv := congrArg (fun z => z / 2 ^ k) h2
      simp only at hdiv
      rwa [Nat.add_mul_div_left _ _ h2pos, Nat.add_mul_div_left _ _ h2pos,
        Nat.div_eq_of_lt hqd.2, Nat.div_eq_of_lt hqe.2, Nat.zero_add,
        Nat.zero_add] at hdiv
    have ht : d / 4 ^ k = e / 4 ^ k := quad_inj _ _ htd hte hrx hry
    rw [ht] at h1 h2
    have hq1 := Nat.add_right_cancel h1
    have hq2 := Nat.add_right_cancel h2
    have hrot : rot (2 ^ k) (hIter k d).1 (hIter k d).2 (e / 4 ^ k / 2 % 2)
        ((e / 4 ^ k ^^^ e / 4 ^ k / 2 % 2) % 2) =
        rot (2 ^ k) (hIter k e).1 (hIter k e).2 (e / 4 ^ k / 2 % 2)
        ((e / 4 ^ k ^^^ e / 4 ^ k / 2 % 2) % 2) := Prod.ext hq1 hq2
    have hpeq := rot_inj _ _ _ _ _ _ _ hpd.1 hpd.2 hpe.1 hpe.2 hrot
    have hIeq : hIter k d = hIter k e := Prod.ext hpeq.1 hpeq.2
    have hmd : hIter k (d % 4 ^ k) = hIter k (e % 4 ^ k) := by
      rw [hIter_mod, hIter_mod, hIeq]
    have hmod : d % 4 ^ k = e % 4 ^ k :=
      ih _ _ (Nat.mod_lt _ h4pos) (Nat.mod_lt _ h4pos) hmd
    have hd2 := Nat.div_add_mod d (4 ^ k)
    have he2 := Nat.div_add_mod e (4 ^ k)
    calc d = 4 ^ k * (d / 4 ^ k) + d % 4 ^ k := hd2.symm
    _ = 4 ^ k * (e / 4 ^ k) + e % 4 ^ k := by rw [ht, hmod]
    _ = e := he2

lemma two_pow_mul_self (m : Nat) : 2 ^ m * 2 ^ m = 4 ^ m := by
  rw [show (4 : Nat) = 2 * 2 from rfl, Nat.mul_pow]

/-- For a power-of-two size the faithful map agrees with `hIter` pointwise,
so the generated list is the `hIter` image of `range (4^m)`. -/
lemma hilbert_list_eq (m : Nat) :
    (List.range (2 ^ m * 2 ^ m)).map (fun d => d2xy (2 ^ m) d) =
      (List.range (4 ^ m)).map (hIter m) := by
  rw [two_pow_mul_self]
  exact List.map_congr_left (fun d _ => d2xy_pow m d)

lemma hilbert_map_nodup (m : Nat) : ((List.range (4 ^ m)).map (hIter m)).Nodup :=
  List.Nodup.map_on
    (fun x hx y hy hxy =>
      hIter_inj m x y (List.mem_range.mp hx) (List.mem_range.mp hy) hxy)
    (List.nodup_range _)

/-- The transform `hIter m` maps `[0, 4^m)` onto the whole `2^m × 2^m` square. -/
lemma hIter_image (m : Nat) :
    (Finset.range (4 ^ m)).image (hIter m) =
      Finset.range (2 ^ m) ×ˢ Finset.range (2 ^ m) := by
  apply Finset.eq_of_subset_of_card_le
  · intro p hp
    obtain ⟨d, _, rfl⟩ := Finset.mem_image.mp hp
    have hb := hIter_lt m d
    exact Finset.mem_product.mpr ⟨Finset.mem_range.mpr hb.1, Finset.mem_range.mpr hb.2⟩
  · rw [Finset.card_product, Finset.card_range,
      Finset.card_image_of_injOn
        (fun x hx y hy hxy =>
          hIter_inj m x y (Finset.mem_range.mp hx) (Finset.mem_range.mp hy) hxy),
      Finset.card_range, two_pow_mul_self]

/-- Bridge between `Finset.range`-filter cardinality and `List.range`-filter
length. -/
lemma card_filter_range (N : Nat) (Q : Nat → Prop) [DecidablePred Q] :
    ((Finset.range N).filter Q).card =
      ((List.range N).filter (fun d => decide (Q d))).length := by
  induction N with
  | zero => simp
  | succ N ih =>
    rw [Finset.range_succ, List.range_succ, Finset.filter_insert, List.filter_append]
    by_cases hQ : Q N
    · rw [if_pos hQ, Finset.card_insert_of_not_mem (by simp)]
      simp [hQ, ih]
    · rw [if_neg hQ]
      simp [hQ, ih]

/-- The number of curve indices landing inside the rectangle is exactly the
rectangle's area. -/
lemma hilbert_filter_length (m w h : Nat) (hw : w ≤ 2 ^ m) (hh : h ≤ 2 ^ m) :
    (((List.range (4 ^ m)).map (hIter m)).filter
        (fun p => decide (p.1 < w ∧ p.2 < h))).length = w * h := by
  rw [← List.countP_eq_length_filter, List.countP_map]
  simp only [Function.comp_def]
  rw [List.countP_eq_length_filter, ← card_filter_range (4 ^ m)
      (fun d => (hIter m d).1 < w ∧ (hIter m d).2 < h)]
  have hinj : Set.InjOn (hIter m)
      ((Finset.range (4 ^ m)).filter
        (fun d => (hIter m d).1 < w ∧ (hIter m d).2 < h)) := by
    intro x hx y hy hxy
    have hx2 := Finset.mem_filter.mp hx
    have hy2 := Finset.mem_filter.mp hy
    exact hIter_inj m x y (Finset.mem_range.mp hx2.1) (Finset.mem_range.mp hy2.1) hxy
  have key : ((Finset.range (4 ^ m)).filter
      (fun d => (hIter m d).1 < w ∧ (hIter m d).2 < h)).image (hIter m) =
      Finset.range w ×ˢ Finset.range h := by
    ext p
    simp only [Finset.mem_image, Finset.mem_filter, Finset.mem_range,
      Finset.mem_product]
    constructor
    · rintro ⟨d, ⟨_, hQ⟩, rfl⟩
      exact hQ
    · rintro ⟨h1, h2⟩
      have hp : p ∈ Finset.range (2 ^ m) ×ˢ Finset.range (2 ^ m) :=
        Finset.mem_product.mpr ⟨Finset.mem_range.mpr (lt_of_lt_of_le h1 hw),
          Finset.mem_range.mpr (lt_of_lt_of_le h2 hh)⟩
      rw [← hIter_image] at hp
      obtain ⟨d, hd, rfl⟩ := Finset.mem_image.mp hp
      exact ⟨d, ⟨Finset.mem_range.mp hd, h1, h2⟩, rfl⟩
  rw [← Finset.card_image_of_injOn hinj, key, Finset.card_product,
    Finset.card_range, Finset.card_range]

/-- Claim C2: for `width, height > 0` the sequence produced by
`get_hilbert_curve` has exactly `width * height` coordinate pairs, contains no
duplicate pair, and every yielded `(x, y)` lies inside the rectangle. -/
theorem c2_hilbert_path_complete (w h : Nat) (p : Nat × Nat) (hw : 0 < w)
    (hh : 0 < h) (hp : p ∈ get_hilbert_curve w h) :
    (get_hilbert_curve w h).length = w * h ∧ (get_hilbert_curve w h).Nodup ∧
      p.1 < w ∧ p.2 < h := by
  obtain ⟨m, hsz, hw2, hh2⟩ := hilbertSize_spec w h
  refine ⟨?_, ?_, ?_⟩
  · unfold get_hilbert_curve
    rw [hsz, hilbert_list_eq m]
    exact hilbert_filter_length m w h hw2 hh2
  · unfold get_hilbert_curve
    rw [hsz, hilbert_list_eq m]
    exact List.Nodup.filter _ (hilbert_map_nodup m)
  · have hmem := (List.mem_filter.mp hp).2
    have := of_decide_eq_true hmem
    exact this

/-- Witness for C2 at the concrete rectangle 2 × 3: the hypotheses are
satisfiable and the path has the claimed shape. -/
theorem c2_hilbert_path_complete_witness :
    (0 < 2 ∧ 0 < 3 ∧ (0, 0) ∈ get_hilbert_curve 2 3) ∧
      ((get_hilbert_curve 2 3).length = 2 * 3 ∧ (get_hilbert_curve 2 3).Nodup ∧
        (0, 0).1 < 2 ∧ (0, 0).2 < 3) :=
  ⟨⟨by decide, by decide, by decide⟩,
    c2_hilbert_path_complete 2 3 (0, 0) (by decide) (by decide) (by decide)⟩

/-- Claim C10: with `width = 0` or `height = 0` the generator terminates and
yields nothing — every candidate point fails the `x < width and y < height`
filter, so the sequence is empty and no error is raised. -/
theorem c10_degenerate_empty (w h : Nat) (hwh : w = 0 ∨ h = 0) :
    get_hilbert_curve w h = [] := by
  unfold get_hilbert_curve
  rw [List.filter_eq_nil_iff]
  intro p hp
  simp only [decide_eq_true_eq]
  omega

/-- Witness for C10 at `width = 0, height = 5`. -/
theorem c10_degenerate_empty_witness :
    (0 = 0 ∨ 5 = 0) ∧ get_hilbert_curve 0 5 = [] :=
  ⟨Or.inl rfl, c10_degenerate_empty 0 5 (Or.inl rfl)⟩

lemma manhattan_add (a b c d u v : Nat) :
    manhattan (a + u, b + v) (c + u, d + v) = manhattan (a, b) (c, d) := by
  simp only [manhattan, Nat.dist]
  omega

lemma rot_mdist (n x y xx yy rx ry : Nat) (hx : x < n) (hy : y < n) (hxx : xx < n)
    (hyy : yy < n) :
    manhattan (rot n x y rx ry) (rot n xx yy rx ry) = manhattan (x, y) (xx, yy) := by
  unfold rot
  split_ifs <;> simp only [manhattan, Nat.dist] <;> omega

/-- The curve starts at the origin corner. -/
lemma hIter_zero (k : Nat) : hIter k 0 = (0, 0) := by
  induction k with
  | zero => rfl
  | succ k ih =>
    rw [hIter_succ_explicit, ih]
    simp [rot]

/-- The curve ends at the corner `(2^k - 1, 0)`. -/
lemma hIter_last (k : Nat) : hIter k (4 ^ k - 1) = (2 ^ k - 1, 0) := by
  induction k with
  | zero => rfl
  | succ k ih =>
    have h4pos : 0 < (4 : Nat) ^ k := pow_pos (by norm_num) k
    have h4 : (4 : Nat) ^ (k + 1) = 4 ^ k * 4 := pow_succ 4 k
    have hsplit : (4 : Nat) ^ (k + 1) - 1 = 4 ^ k * 3 + (4 ^ k - 1) := by omega
    have ht : (4 ^ (k + 1) - 1) / 4 ^ k = 3 := by
      rw [hsplit, Nat.mul_add_div h4pos, Nat.div_eq_of_lt (by omega)]
    have hmod : (4 ^ (k + 1) - 1) % 4 ^ k = 4 ^ k - 1 := by
      rw [hsplit, Nat.mul_add_mod, Nat.mod_eq_of_lt (by omega)]
    have hinner : hIter k (4 ^ (k + 1) - 1) = (2 ^ k - 1, 0) := by
      rw [← hIter_mod, hmod, ih]
    rw [hIter_succ_explicit, ht, hinner]
    have e1 : (3 : Nat) / 2 % 2 = 1 := rfl
    have e2 : ((3 : Nat) ^^^ 1) % 2 = 0 := rfl
    rw [e1, e2]
    have h2 : (2 : Nat) ^ (k + 1) = 2 ^ k * 2 := pow_succ 2 k
    have h2pos : 0 < (2 : Nat) ^ k := pow_pos (by norm_num) k
    simp only [rot, if_pos rfl, Prod.mk.injEq]
    constructor <;> simp <;> omega

/-- Consecutive indices of the structured transform land on adjacent grid
cells — the defining Hilbert property, by induction on the order. -/
lemma hIter_adj (k : Nat) : ∀ d, d + 1 < 4 ^ k →
    manhattan (hIter k d) (hIter k (d + 1)) = 1 := by
  induction k with
  | zero =>
    intro d hd
    rw [pow_zero] at hd
    omega
  | succ k ih =>
    intro d hd
    have h4pos : 0 < (4 : Nat) ^ k := pow_pos (by norm_num) k
    have h2pos : 0 < (2 : Nat) ^ k := pow_pos (by norm_num) k
    have h4 : (4 : Nat) ^ (k + 1) = 4 ^ k * 4 := pow_succ 4 k
    have hdm := Nat.div_add_mod d (4 ^ k)
    have hmlt : d % 4 ^ k < 4 ^ k := Nat.mod_lt _ h4pos
    by_cases hb : d % 4 ^ k + 1 < 4 ^ k
    · have hsum : d + 1 = 4 ^ k * (d / 4 ^ k) + (d % 4 ^ k + 1) := by omega
      have hdiv : (d + 1) / 4 ^ k = d / 4 ^ k := by
        rw [hsum, Nat.mul_add_div h4pos, Nat.div_eq_of_lt hb, Nat.add_zero]
      have hmod : (d + 1) % 4 ^ k = d % 4 ^ k + 1 := by
        rw [hsum, Nat.mul_add_mod, Nat.mod_eq_of_lt hb]
      have hinner : manhattan (hIter k d) (hIter k (d + 1)) = 1 := by
        rw [← hIter_mod k d, ← hIter_mod k (d + 1), hmod]
        exact ih (d % 4 ^ k) (by omega)
      have hbd := hIter_lt k d
      have hbd1 := hIter_lt k (d + 1)
      rw [hIter_succ_explicit, hIter_succ_explicit, hdiv, manhattan_add,
        rot_mdist _ _ _ _ _ _ _ hbd.1 hbd.2 hbd1.1 hbd1.2]
      simpa using hinner
    · have hbm : d % 4 ^ k + 1 = 4 ^ k := by omega
      have hsum : d + 1 = 4 ^ k * (d / 4 ^ k) + 4 ^ k := by omega
      have hsum2 : d + 1 = 4 ^ k * (d / 4 ^ k + 1) := by
        have hdist : 4 ^ k * (d / 4 ^ k + 1) = 4 ^ k * (d / 4 ^ k) + 4 ^ k := by ring
        omega
      have hdiv : (d + 1) / 4 ^ k = d / 4 ^ k + 1 := by
        rw [hsum2, Nat.mul_div_cancel_left _ h4pos]
      have hq1 : d / 4 ^ k + 1 < 4 := by
        have hlt := (Nat.div_lt_iff_lt_mul h4pos).mpr
          (by omega : d + 1 < 4 * 4 ^ k)
        rwa [hdiv] at hlt
      have hstart : hIter k (d + 1) = (0, 0) := by
        rw [← hIter_mod k (d + 1)]
        have hmod0 : (d + 1) % 4 ^ k = 0 := by
          rw [hsum2]
          exact Nat.mul_mod_right _ _
        rw [hmod0, hIter_zero]
      have hend : hIter k d = (2 ^ k - 1, 0) := by
        rw [← hIter_mod k d]
        have hm : d % 4 ^ k = 4 ^ k - 1 := by omega
        rw [hm, hIter_last]
      rw [hIter_succ_explicit, hIter_succ_explicit, hdiv, hstart, hend]
      have hq : d / 4 ^ k = 0 ∨ d / 4 ^ k = 1 ∨ d / 4 ^ k = 2 := by
        revert hq1
        generalize d / 4 ^ k = q
        intro hq1
        omega
      rcases hq with hq | hq | hq <;> rw [hq] <;>
        · simp only [rot, manhattan, Nat.dist]
          norm_num
          omega

lemma map_range_getD {α : Type} (N : Nat) (f : Nat → α) (d0 : α) (i : Nat)
    (h : i < N) : ((List.range N).map f).getD i d0 = f i := by
  rw [List.getD_eq_getElem _ _ (by simpa using h)]
  simp

/-- For a square power-of-two rectangle the filter keeps every point, so the
generated list is the unfiltered curve. -/
lemma hilbert_square_list (k : Nat) :
    get_hilbert_curve (2 ^ k) (2 ^ k) = (List.range (4 ^ k)).map (hIter k) := by
  unfold get_hilbert_curve
  rw [hilbertSize_pow, hilbert_list_eq k]
  apply List.filter_eq_self.mpr
  intro p hp
  obtain ⟨d, _, rfl⟩ := List.mem_map.mp hp
  have hb := hIter_lt k d
  simpa using ⟨hb.1, hb.2⟩

/-- Claim C8: for `width = height = 2^k` (no point is filtered out of the
padded square) every two consecutive coordinates yielded by
`get_hilbert_curve` are adjacent in the grid: their Manhattan distance is
exactly 1. -/
theorem c8_consecutive_adjacent (k i : Nat)
    (hi : i + 1 < (get_hilbert_curve (2 ^ k) (2 ^ k)).length) :
    manhattan ((get_hilbert_curve (2 ^ k) (2 ^ k)).getD i (0, 0))
      ((get_hilbert_curve (2 ^ k) (2 ^ k)).getD (i + 1) (0, 0)) = 1 := by
  rw [hilbert_square_list] at hi ⊢
  have hlen : ((List.range (4 ^ k)).map (hIter k)).length = 4 ^ k := by simp
  rw [hlen] at hi
  rw [map_range_getD _ _ _ _ (by omega), map_range_getD _ _ _ _ hi]
  exact hIter_adj k i hi

/-- Witness for C8 on the 2 × 2 square: the first two curve points are
adjacent. -/
theorem c8_consecutive_adjacent_witness :
    (0 + 1 < (get_hilbert_curve (2 ^ 1) (2 ^ 1)).length) ∧
      manhattan ((get_hilbert_curve (2 ^ 1) (2 ^ 1)).getD 0 (0, 0))
        ((get_hilbert_curve (2 ^ 1) (2 ^ 1)).getD (0 + 1) (0, 0)) = 1 :=
  ⟨by decide, c8_consecutive_adjacent 1 0 (by decide)⟩

/-- Counterexample to claim C3: the unknown strategy name `"median-cut"` is
not reported as a configuration error — `prepare_image` takes the trailing
`else` branch and converts the image with a plain threshold
(`dither=Image.NONE`), i.e. processing proceeds and no error is raised. -/
theorem c3_counterexample :
    prepareDispatch "median-cut" = DitherChoice.fallbackThreshold := by
  decide

/-- Claim C3 (amended): an unknown dithering strategy name is not reported as
a configuration error.  For every name outside the recognised list,
`prepare_image`'s dispatch takes the trailing `else` branch and converts the
image with a plain threshold (`dither=Image.NONE`) instead of raising. -/
theorem c3_unknown_strategy_falls_back (alg : String)
    (halg : alg ∉ "floyd" :: "bayer" :: "yliluoma" :: "cluster" :: "ascii" ::
      "riemersma" :: diffusionKernels) :
    prepareDispatch alg = DitherChoice.fallbackThreshold := by
  simp only [List.mem_cons, not_or] at halg
  obtain ⟨h1, h2, h3, h4, h5, h6, h7⟩ := halg
  unfold prepareDispatch
  rw [if_neg h1, if_neg h2, if_neg h3, if_neg h4, if_neg h7, if_neg h5, if_neg h6]

/-- Witness for C3 (amended) at the concrete unknown name `"median-cut"`. -/
theorem c3_unknown_strategy_falls_back_witness :
    ("median-cut" ∉ "floyd" :: "bayer" :: "yliluoma" :: "cluster" :: "ascii" ::
        "riemersma" :: diffusionKernels) ∧
      prepareDispatch "median-cut" = DitherChoice.fallbackThreshold :=
  ⟨by decide, c3_unknown_strategy_falls_back "median-cut" (by decide)⟩

/-- Counterexample to claim C4: the code truncates, it does not round to
nearest.  At intensity `v = 250` with the 48-glyph ramp the claimed formula
`round((255 − v) / 255 × (L − 1)) = round(47/51)` gives 1, but `ascii_dither`
computes `int(...)` which floors to 0. -/
theorem c4_counterexample :
    asciiCharIndex 48 250 = 0 ∧
      round (((255 : ℚ) - 250) / 255 * (48 - 1)) = 1 := by
  constructor
  · rfl
  · rw [round_eq]
    norm_num

/-- Claim C4 (amended): the glyph index is
`⌊(255 − v) / 255 × (L − 1)⌋` (truncation, not rounding to nearest); the
mapping is still monotonic — darker input (smaller `v`) yields an index at
least as high — and deterministic. -/
theorem c4_ascii_index_floor (L v vv : Nat) (hL : 1 ≤ L) (hv : v ≤ vv)
    (hvv : vv ≤ 255) :
    asciiCharIndex L v = (255 - v) * (L - 1) / 255 ∧
      asciiCharIndex L v = ⌊(255 - (v : ℚ)) / 255 * ((L : ℚ) - 1)⌋₊ ∧
      asciiCharIndex L vv ≤ asciiCharIndex L v := by
  have hclamp : ∀ u : Nat, (255 - u) * (L - 1) / 255 ≤ L - 1 := by
    intro u
    calc (255 - u) * (L - 1) / 255 ≤ 255 * (L - 1) / 255 :=
        Nat.div_le_div_right (Nat.mul_le_mul_right _ (by omega))
    _ = L - 1 := Nat.mul_div_cancel_left _ (by norm_num)
  have hv255 : v ≤ 255 := le_trans hv hvv
  refine ⟨min_eq_left (hclamp v), ?_, ?_⟩
  · unfold asciiCharIndex
    rw [min_eq_left (hclamp v)]
    have hc1 : (255 : ℚ) - (v : ℚ) = ((255 - v : ℕ) : ℚ) := by
      push_cast [hv255]
      ring
    have hc2 : (L : ℚ) - 1 = ((L - 1 : ℕ) : ℚ) := by
      push_cast [hL]
      ring
    rw [hc1, hc2, div_mul_eq_mul_div, ← Nat.cast_mul,
      show (255 : ℚ) = ((255 : ℕ) : ℚ) by norm_num, Nat.floor_div_nat,
      Nat.floor_natCast]
  · unfold asciiCharIndex
    rw [min_eq_left (hclamp v), min_eq_left (hclamp vv)]
    exact Nat.div_le_div_right (Nat.mul_le_mul_right _ (by omega))

/-- Witness for C4 (amended) at `L = 48`, `v = 100`, `vv = 200`. -/
theorem c4_ascii_index_floor_witness :
    (1 ≤ 48 ∧ 100 ≤ 200 ∧ 200 ≤ 255) ∧
      (asciiCharIndex 48 100 = (255 - 100) * (48 - 1) / 255 ∧
        asciiCharIndex 48 100 = ⌊(255 - (100 : ℚ)) / 255 * ((48 : ℚ) - 1)⌋₊ ∧
        asciiCharIndex 48 200 ≤ asciiCharIndex 48 100) :=
  ⟨⟨by norm_num, by norm_num, by norm_num⟩,
    c4_ascii_index_floor 48 100 200 (by norm_num) (by norm_num) (by norm_num)⟩

/-- The source ramp really has 48 glyphs. -/
lemma ascii_chars_length : ascii_chars.length = 48 := by decide

/-- Counterexample to claim C5: with `history_depth = 1` the call does not
complete — Python evaluates `0 / (history_depth - 1) = 0 / 0` in the weight
loop and raises `ZeroDivisionError`; no thresholded image is returned. -/
theorem c5_counterexample :
    riemersma_dither allWhite1 1 (1 / 10) = Except.error PyError.zeroDivision := by
  simp [riemersma_dither]

/-- Claim C5 (amended): for every grayscale image and every ratio,
`riemersma_dither` with `history_depth = 1` raises `ZeroDivisionError` while
precomputing the weights (the exponent `i / (H - 1)` divides by zero); it
does not degenerate to thresholding. -/
theorem c5_h1_zero_division (img : GrayImage) (r : ℝ) :
    riemersma_dither img 1 r = Except.error PyError.zeroDivision := by
  simp [riemersma_dither]

lemma list_sum_map_div (l : List ℝ) (c : ℝ) :
    (l.map (fun u => u / c)).sum = l.sum / c := by
  induction l with
  | nil => simp
  | cons a t ih => simp [ih, add_div]

/-- Claim C6: for `H ≥ 2` and `r ∈ (0,1]`, the weight vector has length `H`
with `weight[i] = r^(i/(H-1))` before normalisation, and after normalisation
the weights sum to 1. -/
theorem c6_weight_vector (H : Nat) (r : ℝ) (i : Nat) (hH : 2 ≤ H) (hr0 : 0 < r)
    (hr1 : r ≤ 1) (hi : i < H) :
    (riemersmaWeightsRaw H r).length = H ∧
      (riemersmaWeights H r).length = H ∧
      (riemersmaWeightsRaw H r).getD i 0 = r ^ ((i : ℝ) / ((H : ℝ) - 1)) ∧
      (riemersmaWeights H r).sum = 1 := by
  refine ⟨by simp [riemersmaWeightsRaw], by simp [riemersmaWeights, riemersmaWeightsRaw],
    ?_, ?_⟩
  · unfold riemersmaWeightsRaw
    exact map_range_getD H _ 0 i hi
  · unfold riemersmaWeights
    rw [list_sum_map_div]
    apply div_self
    apply ne_of_gt
    apply List.sum_pos
    · intro xv hx
      unfold riemersmaWeightsRaw at hx
      obtain ⟨iv, _, rfl⟩ := List.mem_map.mp hx
      exact Real.rpow_pos_of_pos hr0 _
    · unfold riemersmaWeightsRaw
      simp only [ne_eq, List.map_eq_nil_iff, List.range_eq_nil]
      omega

/-- Witness for C6 at `H = 2`, `r = 1`, `i = 1`. -/
theorem c6_weight_vector_witness :
    (2 ≤ 2 ∧ (0 : ℝ) < 1 ∧ (1 : ℝ) ≤ 1 ∧ 1 < 2) ∧
      ((riemersmaWeightsRaw 2 1).length = 2 ∧
        (riemersmaWeights 2 1).length = 2 ∧
        (riemersmaWeightsRaw 2 1).getD 1 0 =
          (1 : ℝ) ^ (((1 : ℕ) : ℝ) / (((2 : ℕ) : ℝ) - 1)) ∧
        (riemersmaWeights 2 1).sum = 1) :=
  ⟨⟨by norm_num, by norm_num, by norm_num, by norm_num⟩,
    c6_weight_vector 2 1 1 (by norm_num) (by norm_num) (by norm_num) (by norm_num)⟩

lemma zipWith_replicate_zero_sum (n : Nat) : ∀ l : List ℝ,
    (List.zipWith (fun u v => u * v) (List.replicate n (0 : ℝ)) l).sum = 0 := by
  induction n with
  | zero => intro l; simp
  | succ n ih =>
    intro l
    cases l with
    | nil => simp
    | cons a t =>
      rw [List.replicate_succ, List.zipWith_cons_cons, List.sum_cons, ih t]
      ring

/-- Counterexample to claim C1: the quantisation polarity is the opposite of
the claimed one.  On the 1×1 all-white image (intensity 255, empty error
history) the claim predicts a dark output (0) because
`expected = 255 > 127.5`; the code sets `new_pixel = 255 if old_pixel > 127.5
else 0`, i.e. it emits 255 (light) there. -/
theorem c1_counterexample : resultPix (riemersma_dither allWhite1 2 1) 0 0 = 255 := by
  have hpath : get_hilbert_curve 1 1 = [(0, 0)] := by decide
  simp only [riemersma_dither, resultPix, riemersmaRun, riemersmaInit, allWhite1]
  norm_num
  rw [hpath]
  simp only [List.foldl_cons, List.foldl_nil, riemersmaStep, dotSum]
  norm_num
  rw [zipWith_replicate_zero_sum 2 (riemersmaWeights 2 1)]
  norm_num

/-- Claim C1 (amended): `riemersma_dither` visits the pixels in Hilbert-path
order (the fold below), at each pixel computes
`expected = intensity + Σ history·weight`, quantises to LIGHT (255) when
`expected > 127.5` and to DARK (0) otherwise — the polarity opposite to the
claim — leaves every other pixel untouched, and pushes
`error = expected − quantised` onto the front of the ring buffer, evicting the
oldest entry (`np.roll` by one, then overwrite slot 0). -/
theorem c1_riemersma_loop (img : GrayImage) (H : Nat) (r : ℝ)
    (out : Nat → Nat → Nat) (q : List ℝ) (x y yy xx : Nat)
    (hH : 2 ≤ H) (hr0 : 0 < r) (hr1 : r ≤ 1) :
    riemersma_dither img H r = Except.ok ⟨img.w, img.h, (riemersmaRun img H r).1⟩ ∧
      riemersmaRun img H r = (get_hilbert_curve img.w img.h).foldl
        (riemersmaStep (riemersmaWeights H r) img) (riemersmaInit H) ∧
      (riemersmaStep (riemersmaWeights H r) img (out, q) (x, y)).1 y x =
        (if (img.pix y x : ℝ) + dotSum q (riemersmaWeights H r) > 127.5
          then 255 else 0) ∧
      (¬(yy = y ∧ xx = x) →
        (riemersmaStep (riemersmaWeights H r) img (out, q) (x, y)).1 yy xx =
          out yy xx) ∧
      (riemersmaStep (riemersmaWeights H r) img (out, q) (x, y)).2 =
        ((img.pix y x : ℝ) + dotSum q (riemersmaWeights H r) -
          ((if (img.pix y x : ℝ) + dotSum q (riemersmaWeights H r) > 127.5
            then (255 : Nat) else 0) : ℝ)) :: q.dropLast := by
  refine ⟨?_, rfl, ?_, ?_, ?_⟩
  · unfold riemersma_dither
    rw [if_neg (by omega : H ≠ 1)]
  · simp [riemersmaStep]
  · intro hne
    simp [riemersmaStep, hne]
  · simp [riemersmaStep]

/-- Witness for C1 (amended) at the 1×1 all-white image, `H = 2`, `r = 1`,
step state `(zeroOut, [])`, pixel `(0, 0)`, other pixel `(1, 1)`. -/
theorem c1_riemersma_loop_witness :
    (2 ≤ 2 ∧ (0 : ℝ) < 1 ∧ (1 : ℝ) ≤ 1) ∧
      (riemersma_dither allWhite1 2 1 =
          Except.ok ⟨allWhite1.w, allWhite1.h, (riemersmaRun allWhite1 2 1).1⟩ ∧
        riemersmaRun allWhite1 2 1 =
          (get_hilbert_curve allWhite1.w allWhite1.h).foldl
            (riemersmaStep (riemersmaWeights 2 1) allWhite1) (riemersmaInit 2) ∧
        (riemersmaStep (riemersmaWeights 2 1) allWhite1 (zeroOut, []) (0, 0)).1 0 0 =
          (if (allWhite1.pix 0 0 : ℝ) + dotSum [] (riemersmaWeights 2 1) > 127.5
            then 255 else 0) ∧
        (¬(1 = 0 ∧ 1 = 0) →
          (riemersmaStep (riemersmaWeights 2 1) allWhite1 (zeroOut, []) (0, 0)).1 1 1 =
            zeroOut 1 1) ∧
        (riemersmaStep (riemersmaWeights 2 1) allWhite1 (zeroOut, []) (0, 0)).2 =
          ((allWhite1.pix 0 0 : ℝ) + dotSum [] (riemersmaWeights 2 1) -
            ((if (allWhite1.pix 0 0 : ℝ) + dotSum [] (riemersmaWeights 2 1) > 127.5
              then (255 : Nat) else 0) : ℝ)) :: List.dropLast []) :=
  ⟨⟨by norm_num, by norm_num, by norm_num⟩,
    c1_riemersma_loop allWhite1 2 1 zeroOut [] 0 0 1 1 (by norm_num) (by norm_num)
      (by norm_num)⟩

/-- Claim C7: the output dimensions always equal the input (riemersma) or the
requested target (ascii) dimensions.  `riemersma_dither` builds its output
with `np.zeros_like(img_data)` (same shape as the input) and `ascii_dither`
draws onto `Image.new('L', (target_w, target_h))`. -/
theorem c7_output_dims (img : GrayImage) (H : Nat) (r : ℝ)
    (cellPix : Nat → Nat → Nat) (fontMask : Nat → Nat → Nat → Bool)
    (tw th cw ch : Nat) (hH : 2 ≤ H) :
    (riemersma_dither img H r).isOk = true ∧
      resultW (riemersma_dither img H r) = img.w ∧
      resultH (riemersma_dither img H r) = img.h ∧
      (ascii_dither cellPix fontMask tw th cw ch).w = tw ∧
      (ascii_dither cellPix fontMask tw th cw ch).h = th := by
  have hne : H ≠ 1 := by omega
  unfold riemersma_dither
  rw [if_neg hne]
  exact ⟨rfl, rfl, rfl, rfl, rfl⟩

/-- Witness for C7 at the 1×1 image, `H = 2`, `r = 1` and a 10×8 ascii
target with 3×4 glyph cells. -/
theorem c7_output_dims_witness :
    (2 ≤ 2) ∧
      ((riemersma_dither allWhite1 2 1).isOk = true ∧
        resultW (riemersma_dither allWhite1 2 1) = allWhite1.w ∧
        resultH (riemersma_dither allWhite1 2 1) = allWhite1.h ∧
        (ascii_dither zeroOut noInk 10 8 3 4).w = 10 ∧
        (ascii_dither zeroOut noInk 10 8 3 4).h = 8) :=
  ⟨by norm_num, c7_output_dims allWhite1 2 1 zeroOut noInk 10 8 3 4 (by norm_num)⟩

/-- Along any path, the loop body never writes the caller's buffer or the
float working copy: both components of the store are invariant under the
fold. -/
lemma foldl_stepImp_frame (ws : List ℝ) :
    ∀ (path : List (Nat × Nat)) (st : RiemersmaState),
      (path.foldl (riemersmaStepImp ws) st).caller = st.caller ∧
        (path.foldl (riemersmaStepImp ws) st).imgData = st.imgData := by
  intro path
  induction path with
  | nil => intro st; exact ⟨rfl, rfl⟩
  | cons p t ih =>
    intro st
    rw [List.foldl_cons]
    exact ih (riemersmaStepImp ws st p)

/-- Claim C9: `riemersma_dither` never mutates the caller's input buffer.
`np.array(img, dtype=float)` copies the pixels into the private float buffer
`img_data`; all arithmetic reads that copy, every write targets `output` or
`error_queue`, and after the call both the caller's buffer and the copy hold
exactly the input's pixel values. -/
theorem c9_input_not_mutated (img : GrayImage) (H : Nat) (r : ℝ) (y x : Nat)
    (hH : 2 ≤ H) :
    impCallerPix (riemersma_dither_imp img H r) y x = img.pix y x ∧
      impDataPix (riemersma_dither_imp img H r) y x = (img.pix y x : ℝ) := by
  have hne : H ≠ 1 := by omega
  unfold riemersma_dither_imp
  rw [if_neg hne]
  have h := foldl_stepImp_frame (riemersmaWeights H r)
    (get_hilbert_curve img.w img.h)
    { caller := img.pix, imgData := fun yv xv => (img.pix yv xv : ℝ),
      output := fun _ _ => 0, queue := List.replicate H 0 }
  constructor
  · simp only [impCallerPix]
    rw [h.1]
  · simp only [impDataPix]
    rw [h.2]

/-- Witness for C9 at the 1×1 all-white image, `H = 2`, `r = 1`, pixel
`(0, 0)`. -/
theorem c9_input_not_mutated_witness :
    (2 ≤ 2) ∧
      (impCallerPix (riemersma_dither_imp allWhite1 2 1) 0 0 = allWhite1.pix 0 0 ∧
        impDataPix (riemersma_dither_imp allWhite1 2 1) 0 0 =
          (allWhite1.pix 0 0 : ℝ)) :=
  ⟨by norm_num, c9_input_not_mutated allWhite1 2 1 0 0 (by norm_num)⟩

end Dymo
